import Mathlib

/-!
Verification development for the mukti release-metadata tool.

The definitions below are a shallow embedding of the Rust sources:
* `mukti-metadata/src/models.rs` — the metadata tree and `VersionRange`;
* `mukti-bin/src/release_json.rs` — `update_release_json`;
* `mukti-bin/src/checksums.rs` — fetch/retry/digest pipeline and backfill.

Rust `BTreeMap`s are embedded as association lists sorted by key in
strictly increasing order; `semver::Version` is embedded with numeric
components as `Nat` and prerelease/build identifier lists, ordered by
semver precedence (with build metadata as a final tiebreak, matching the
`Ord` impl of the `semver` crate).
-/

/-- Rust strings are embedded as lists of characters (ASCII-lexicographic
order coincides with the character-list order). -/
abbrev Str := List Char

/-- A single prerelease / build-metadata identifier of a semantic version:
numeric identifiers order below alphanumeric ones. -/
inductive PreId where
  | num (n : Nat)
  | alpha (s : Str)
deriving Repr

/-- Order key of an identifier: numeric identifiers are lexicographically
below alphanumeric ones, matching semver precedence. -/
def PreId.key : PreId → Lex (Nat ⊕ Str)
  | .num n => toLex (Sum.inl n)
  | .alpha s => toLex (Sum.inr s)

theorem preIdKey_injective : Function.Injective PreId.key := by
  intro a b h
  cases a <;> cases b <;> simp [PreId.key, toLex] at h <;> simp [h]

instance : LinearOrder PreId := LinearOrder.lift' PreId.key preIdKey_injective

/-- Embedding of `semver::Version`: major/minor/patch numbers, prerelease
identifiers (empty list = a release version) and build metadata. -/
structure Version where
  major : Nat
  minor : Nat
  patch : Nat
  pre : List PreId
  build : List PreId
deriving Repr

/-- Order key of a version: compare major, minor, patch; then the
prerelease (a release, i.e. empty `pre`, is greater than any prerelease,
and prereleases compare lexicographically); then build metadata. -/
def Version.key (v : Version) :
    Lex (Nat × Lex (Nat × Lex (Nat × Lex (Lex (Bool × List PreId) × List PreId)))) :=
  toLex (v.major, toLex (v.minor, toLex (v.patch,
    toLex (toLex (v.pre.isEmpty, v.pre), v.build))))

theorem versionKey_injective : Function.Injective Version.key := by
  intro a b h
  cases a; cases b
  simp [Version.key, toLex, Prod.ext_iff] at h
  obtain ⟨h1, h2, h3, ⟨_, h4⟩, h5⟩ := h
  simp [h1, h2, h3, h4, h5]

instance : LinearOrder Version := LinearOrder.lift' Version.key versionKey_injective

/-- `version.pre.is_empty()` of the `semver` crate: true iff the version
is not a prerelease. -/
def Version.preIsEmpty (v : Version) : Bool := v.pre.isEmpty

/-- Embedding of `VersionRange` from `mukti-metadata/src/models.rs`. -/
inductive VersionRange where
  | patch (n : Nat)
  | minor (n : Nat)
  | major (n : Nat)
deriving Repr

/-- Order key realizing the derived `Ord` of the Rust enum: variant rank
first (`Patch` = 0 < `Minor` = 1 < `Major` = 2), then the numeric payload. -/
def VersionRange.key : VersionRange → Lex (Nat × Nat)
  | .patch n => toLex (0, n)
  | .minor n => toLex (1, n)
  | .major n => toLex (2, n)

theorem versionRangeKey_injective : Function.Injective VersionRange.key := by
  intro a b h
  cases a <;> cases b <;> simp [VersionRange.key, toLex, Prod.ext_iff] at h <;> simp [h]

instance : LinearOrder VersionRange :=
  LinearOrder.lift' VersionRange.key versionRangeKey_injective

/-- `VersionRange::from_version` (`models.rs` lines 94–102). -/
def VersionRange.from_version (version : Version) : VersionRange :=
  if version.major ≥ 1 then
    VersionRange.major version.major
  else if version.minor ≥ 1 then
    VersionRange.minor version.minor
  else
    VersionRange.patch version.patch

/-- The character of a decimal digit. -/
def digitChar : Nat → Char
  | 0 => '0' | 1 => '1' | 2 => '2' | 3 => '3' | 4 => '4'
  | 5 => '5' | 6 => '6' | 7 => '7' | 8 => '8' | 9 => '9'
  | _ => '*'

/-- Decimal digits of `n`, least significant first; the first argument is
fuel (any amount `≥ n` computes all digits). -/
def natCharsRev : Nat → Nat → List Char
  | _, 0 => []
  | n, fuel + 1 => if n = 0 then [] else digitChar (n % 10) :: natCharsRev (n / 10) fuel

/-- Decimal digit characters of `n`, most significant first (the rendering
used by Rust `Display` for `u64`). -/
def natChars (n : Nat) : List Char :=
  if n = 0 then ['0'] else (natCharsRev n n).reverse

/-- One decimal digit back to its value. -/
def digitVal (c : Char) : Nat := c.toNat - 48

/-- Whether `c` is a decimal digit. -/
def isDigitChar (c : Char) : Bool := 48 ≤ c.toNat && c.toNat ≤ 57

/-- Value of a digit string, most significant first (`none` if empty or
any character is not a digit) — the core of Rust `str::parse::<u64>`. -/
def digitsVal (l : List Char) : Option Nat :=
  if l.isEmpty then none
  else if l.all isDigitChar then
    some (l.foldl (fun acc c => acc * 10 + digitVal c) 0)
  else none

/-- Rust `str::parse::<u64>`: an optional leading `+` sign followed by at
least one decimal digit. -/
def parseU64 (l : List Char) : Option Nat :=
  match l with
  | [] => none
  | c :: rest => if c = '+' then digitsVal rest else digitsVal (c :: rest)

/-- `Display for VersionRange` (`models.rs` lines 125–133): exactly one of
the three forms `<major>`, `0.<minor>`, `0.0.<patch>`. -/
def VersionRange.render : VersionRange → List Char
  | .major n => natChars n
  | .minor n => '0' :: '.' :: natChars n
  | .patch n => '0' :: '.' :: '0' :: '.' :: natChars n

/-- Rust `str::strip_prefix`: `some` of the remainder when `p` is a prefix
of `l`. -/
def dropLit : List Char → List Char → Option (List Char)
  | [], l => some l
  | _ :: _, [] => none
  | p :: ps, c :: cs => if c = p then dropLit ps cs else none

/-- `FromStr for VersionRange` (`models.rs` lines 135–147): try the
`0.0.` form, then the `0.` form, then a bare major version. -/
def VersionRange.parse (input : List Char) : Option VersionRange :=
  match dropLit ['0', '.', '0', '.'] input with
  | some patchStr => (parseU64 patchStr).map VersionRange.patch
  | none =>
    match dropLit ['0', '.'] input with
    | some minorStr => (parseU64 minorStr).map VersionRange.minor
    | none => (parseU64 input).map VersionRange.major

/-! ## Sorted association lists: the embedding of Rust `BTreeMap` -/

/-- The keys of an association list, in order. -/
def keysOf {K V : Type} (m : List (K × V)) : List K := m.map Prod.fst

/-- A `BTreeMap` is an association list whose keys are strictly increasing. -/
def SortedKeys {K V : Type} [LinearOrder K] (m : List (K × V)) : Prop :=
  (keysOf m).Pairwise (· < ·)

/-- `BTreeMap::insert`: insert at the sorted position, replacing an entry
with an equal key. -/
def insertSorted {K V : Type} [LinearOrder K] (k : K) (v : V) :
    List (K × V) → List (K × V)
  | [] => [(k, v)]
  | (k0, v0) :: rest =>
    if k < k0 then (k, v) :: (k0, v0) :: rest
    else if k = k0 then (k, v) :: rest
    else (k0, v0) :: insertSorted k v rest

/-- `BTreeMap::get` / `contains_key`: lookup by key equality. -/
def lookupA {K V : Type} [LinearOrder K] (k : K) : List (K × V) → Option V
  | [] => none
  | (k0, v0) :: rest => if k = k0 then some v0 else lookupA k rest

theorem insertSorted_ne_nil {K V : Type} [LinearOrder K] (k : K) (v : V)
    (m : List (K × V)) : insertSorted k v m ≠ [] := by
  cases m with
  | nil => simp [insertSorted]
  | cons e rest =>
    obtain ⟨k0, v0⟩ := e
    simp only [insertSorted]
    split
    · simp
    · split <;> simp

theorem mem_keysOf_insertSorted {K V : Type} [LinearOrder K] {k x : K} {v : V}
    {m : List (K × V)} : x ∈ keysOf (insertSorted k v m) ↔ x = k ∨ x ∈ keysOf m := by
  induction m with
  | nil => simp [insertSorted, keysOf]
  | cons e rest ih =>
    obtain ⟨k0, v0⟩ := e
    simp only [insertSorted]
    split
    · simp [keysOf]
    · split
      · rename_i hlt heq
        subst heq
        simp only [keysOf, List.map_cons] at *
        simp only [List.mem_cons]
        constructor
        · rintro (h | h)
          · exact Or.inl h
          · exact Or.inr (Or.inr h)
        · rintro (h | h | h)
          · exact Or.inl h
          · exact Or.inl h
          · exact Or.inr h
      · simp only [keysOf, List.map_cons, List.mem_cons] at *
        constructor
        · rintro (h | h)
          · exact Or.inr (Or.inl h)
          · rcases ih.mp h with h1 | h1
            · exact Or.inl h1
            · exact Or.inr (Or.inr h1)
        · rintro (h | h | h)
          · exact Or.inr (ih.mpr (Or.inl h))
          · exact Or.inl h
          · exact Or.inr (ih.mpr (Or.inr h))

theorem sortedKeys_insertSorted {K V : Type} [LinearOrder K] (k : K) (v : V)
    {m : List (K × V)} (h : SortedKeys m) : SortedKeys (insertSorted k v m) := by
  induction m with
  | nil => simp [SortedKeys, insertSorted, keysOf]
  | cons e rest ih =>
    obtain ⟨k0, v0⟩ := e
    simp only [SortedKeys, keysOf, List.map_cons, List.pairwise_cons] at h
    obtain ⟨hk0, hrest⟩ := h
    simp only [insertSorted]
    split
    · rename_i hlt
      simp only [SortedKeys, keysOf, List.map_cons, List.pairwise_cons]
      refine ⟨?_, ?_, hrest⟩
      · intro x hx
        rcases List.mem_cons.mp hx with h1 | h1
        · exact h1 ▸ hlt
        · exact lt_trans hlt (hk0 x h1)
      · exact hk0
    · split
      · rename_i hlt heq
        subst heq
        simp only [SortedKeys, keysOf, List.map_cons, List.pairwise_cons]
        exact ⟨hk0, hrest⟩
      · rename_i hlt heq
        have hk0k : k0 < k := by
          rcases lt_trichotomy k k0 with h1 | h1 | h1
          · exact absurd h1 hlt
          · exact absurd h1 heq
          · exact h1
        simp only [SortedKeys, keysOf, List.map_cons, List.pairwise_cons]
        refine ⟨?_, ih (by exact hrest)⟩
        intro x hx
        rcases mem_keysOf_insertSorted.mp hx with h1 | h1
        · exact h1 ▸ hk0k
        · exact hk0 x h1

theorem lookupA_insertSorted {K V : Type} [LinearOrder K] (u k : K) (v : V)
    (m : List (K × V)) :
    lookupA u (insertSorted k v m) = if u = k then some v else lookupA u m := by
  induction m with
  | nil => simp [insertSorted, lookupA]
  | cons e rest ih =>
    obtain ⟨k0, v0⟩ := e
    simp only [insertSorted]
    split
    · simp [lookupA]
    · split
      · rename_i hlt heq
        subst heq
        simp only [lookupA]
        by_cases hu : u = k <;> simp [hu]
      · rename_i hlt heq
        simp only [lookupA, ih]
        by_cases hu0 : u = k0
        · subst hu0
          have : ¬ u = k := fun h => heq h.symm
          simp [this]
        · simp [hu0]

theorem foldr_insertSorted_self {K V : Type} [LinearOrder K] :
    ∀ (m : List (K × V)), SortedKeys m →
      m.foldr (fun kv acc => insertSorted kv.1 kv.2 acc) [] = m := by
  intro m
  induction m with
  | nil => intro _; rfl
  | cons e rest ih =>
    intro h
    obtain ⟨k0, v0⟩ := e
    simp only [SortedKeys, keysOf, List.map_cons, List.pairwise_cons] at h
    obtain ⟨hk0, hrest⟩ := h
    simp only [List.foldr_cons, ih hrest]
    cases hr : rest with
    | nil => rfl
    | cons e1 rest1 =>
      obtain ⟨k1, v1⟩ := e1
      have hk1 : k0 < k1 := by
        apply hk0
        simp [hr, keysOf]
      simp [insertSorted, hk1]

/-- A `find?` hit on a strictly descending list is the greatest element
satisfying the predicate. -/
theorem find_desc_max {α : Type} [LinearOrder α] (p : α → Bool) :
    ∀ (r : List α), r.Pairwise (· > ·) → ∀ k, r.find? p = some k →
      k ∈ r ∧ p k = true ∧ ∀ x ∈ r, p x = true → x ≤ k := by
  intro r
  induction r with
  | nil => intro _ k h; simp [List.find?] at h
  | cons a t ih =>
    intro hp k hfind
    simp only [List.pairwise_cons] at hp
    obtain ⟨ha, ht⟩ := hp
    by_cases hpa : p a = true
    · simp only [List.find?, hpa] at hfind
      obtain rfl : a = k := by injection hfind
      refine ⟨List.mem_cons_self _ _, hpa, ?_⟩
      intro x hx _
      rcases List.mem_cons.mp hx with h1 | h1
      · exact le_of_eq h1
      · exact le_of_lt (ha x h1)
    · have hpa2 : p a = false := by
        cases h : p a
        · rfl
        · exact absurd h hpa
      simp only [List.find?, hpa2] at hfind
      obtain ⟨hmem, hpk, hmax⟩ := ih ht k hfind
      refine ⟨List.mem_cons_of_mem _ hmem, hpk, ?_⟩
      intro x hx hpx
      rcases List.mem_cons.mp hx with h1 | h1
      · exact absurd (h1 ▸ hpx) hpa
      · exact hmax x h1 hpx

/-- `keys().rev().find(p)` on a `BTreeMap`: the first hit scanning from
the greatest key. -/
def revFind {K V : Type} (p : K → Bool) (m : List (K × V)) : Option K :=
  (keysOf m).reverse.find? p

theorem revFind_spec {K V : Type} [LinearOrder K] (p : K → Bool)
    {m : List (K × V)} (hs : SortedKeys m) {k : K} (h : revFind p m = some k) :
    k ∈ keysOf m ∧ p k = true ∧ ∀ x ∈ keysOf m, p x = true → x ≤ k := by
  have hdesc : (keysOf m).reverse.Pairwise (· > ·) := by
    rw [List.pairwise_reverse]
    exact hs
  obtain ⟨hmem, hpk, hmax⟩ := find_desc_max p _ hdesc k h
  refine ⟨List.mem_reverse.mp hmem, hpk, ?_⟩
  intro x hx hpx
  exact hmax x (List.mem_reverse.mpr hx) hpx

theorem revFind_eq_none {K V : Type} (p : K → Bool) {m : List (K × V)}
    (h : revFind p m = none) : ∀ x ∈ keysOf m, p x = false := by
  intro x hx
  have := List.find?_eq_none.mp h x (List.mem_reverse.mpr hx)
  cases hp : p x
  · rfl
  · exact absurd hp this

/-- `keys().next_back()` on a `BTreeMap`: the greatest key. -/
theorem getLast_spec {K V : Type} [LinearOrder K] {m : List (K × V)}
    (hs : SortedKeys m) {k : K} (h : (keysOf m).getLast? = some k) :
    k ∈ keysOf m ∧ ∀ x ∈ keysOf m, x ≤ k := by
  have hh : (keysOf m).reverse.head? = some k := by
    rw [List.head?_reverse]
    exact h
  have hdesc : (keysOf m).reverse.Pairwise (· > ·) := by
    rw [List.pairwise_reverse]
    exact hs
  have hfind : (keysOf m).reverse.find? (fun _ => true) = some k := by
    cases hrev : (keysOf m).reverse with
    | nil => rw [hrev] at hh; simp at hh
    | cons a t =>
      rw [hrev] at hh
      simp only [List.head?] at hh
      simpa [List.find?] using hh
  obtain ⟨hmem, _, hmax⟩ := find_desc_max (fun _ => true) _ hdesc k hfind
  refine ⟨List.mem_reverse.mp hmem, ?_⟩
  intro x hx
  exact hmax x (List.mem_reverse.mpr hx) rfl

theorem foldl_max_spec {α : Type} [LinearOrder α] :
    ∀ (l : List α) (a : α), l.foldl max a ∈ a :: l ∧ ∀ x ∈ a :: l, x ≤ l.foldl max a := by
  intro l
  induction l with
  | nil => intro a; simp
  | cons b t ih =>
    intro a
    simp only [List.foldl_cons]
    obtain ⟨hmem, hmax⟩ := ih (max a b)
    constructor
    · rcases List.mem_cons.mp hmem with h1 | h1
      · rw [h1]
        rcases max_choice a b with h2 | h2 <;> rw [h2] <;> simp
      · simp [h1]
    · intro x hx
      rcases List.mem_cons.mp hx with h1 | h1
      · subst h1
        exact le_trans (le_max_left x b) (hmax _ (List.mem_cons_self _ _))
      · rcases List.mem_cons.mp h1 with h2 | h2
        · subst h2
          exact le_trans (le_max_right a x) (hmax _ (List.mem_cons_self _ _))
        · exact hmax x (List.mem_cons_of_mem _ h2)

/-- `Iterator::max`: a `some` result is a greatest element of the list. -/
theorem max?_spec {α : Type} [LinearOrder α] {l : List α} {k : α}
    (h : l.max? = some k) : k ∈ l ∧ ∀ x ∈ l, x ≤ k := by
  cases l with
  | nil => simp [List.max?] at h
  | cons a t =>
    simp only [List.max?] at h
    obtain rfl : t.foldl max a = k := by injection h
    exact foldl_max_spec t a

theorem max?_none {α : Type} [LinearOrder α] {l : List α}
    (h : l.max? = none) : l = [] := by
  cases l with
  | nil => rfl
  | cons a t => simp [List.max?] at h

/-! ## Metadata tree (`mukti-metadata/src/models.rs`) -/

/-- Modelled from the spec: the digest-algorithm key of a Checksum Map
(§3: `SHA256` | `BLAKE2B`). The enum is declared in the published
`mukti-metadata` crate; the `models.rs` snapshot here predates it. -/
inductive DigestAlgorithm where
  | sha256
  | blake2b
deriving Repr

/-- Key order for the `BTreeMap` over digest algorithms. -/
def DigestAlgorithm.key : DigestAlgorithm → Nat
  | .sha256 => 0
  | .blake2b => 1

theorem digestAlgorithmKey_injective : Function.Injective DigestAlgorithm.key := by
  intro a b h
  cases a <;> cases b <;> simp [DigestAlgorithm.key] at h <;> rfl

instance : LinearOrder DigestAlgorithm :=
  LinearOrder.lift' DigestAlgorithm.key digestAlgorithmKey_injective

/-- Modelled from the spec: a digest value, a lowercase-hex string (§3). -/
abbrev Digest := Str

/-- `ReleaseStatus` (`models.rs`). -/
inductive ReleaseStatus where
  | active
  | yanked
deriving DecidableEq, Repr

/-- The only JSON metadata value `update_release_json` ever writes is
`serde_json::Value::Null`. -/
inductive JsonValue where
  | null
deriving DecidableEq, Repr

/-- `ReleaseLocation` (`models.rs`). The `checksums` field is modelled
from the spec (§3 Checksum Map): it is present in the published
`mukti-metadata` crate used by `checksums.rs` and `release_json.rs`, while
the `models.rs` snapshot here predates it. -/
structure ReleaseLocation where
  target : Str
  format : Str
  url : Str
  checksums : List (DigestAlgorithm × Digest)
deriving DecidableEq, Repr

/-- `ReleaseVersionData` (`models.rs`; the `metadata` field is the one
`release_json.rs` sets to `Value::Null`). -/
structure ReleaseVersionData where
  release_url : Str
  status : ReleaseStatus
  locations : List ReleaseLocation
  metadata : JsonValue
deriving DecidableEq, Repr

/-- `ReleaseRangeData` (`models.rs`). -/
structure ReleaseRangeData where
  latest : Version
  is_prerelease : Bool
  versions : List (Version × ReleaseVersionData)
deriving DecidableEq, Repr

/-- `MuktiProject` (`models.rs`). -/
structure MuktiProject where
  latest : Option VersionRange
  ranges : List (VersionRange × ReleaseRangeData)
deriving DecidableEq, Repr

/-- `MuktiReleasesJson` (`models.rs`). -/
structure MuktiReleasesJson where
  projects : List (Str × MuktiProject)
deriving DecidableEq, Repr

/-! ## Digest engine and fetch task (`mukti-bin/src/checksums.rs`) -/

/-- A byte buffer. -/
abbrev Bytes := List Nat

/-- Lowercase hex character of a value `< 16`. -/
def hexDigit (n : Nat) : Char :=
  if n < 10 then Char.ofNat (48 + n) else Char.ofNat (87 + n)

/-- Two lowercase hex characters of one byte (`hex::encode`). -/
def hexByte (b : Nat) : List Char := [hexDigit (b % 256 / 16), hexDigit (b % 16)]

/-- `hex::encode`: lowercase hex of a byte buffer. -/
def hexEncode (bytes : Bytes) : Str := (bytes.map hexByte).flatten

/-- `Checksums` (`checksums.rs` lines 191–194): the two raw digests. -/
structure Checksums where
  sha256 : Bytes
  blake2b : Bytes
deriving DecidableEq, Repr

/-- `Checksums::to_checksum_map` (`checksums.rs` lines 197–204): collect
the two hex-encoded digests into a `BTreeMap`. -/
def Checksums.to_checksum_map (c : Checksums) : List (DigestAlgorithm × Digest) :=
  [(DigestAlgorithm.sha256, hexEncode c.sha256),
   (DigestAlgorithm.blake2b, hexEncode c.blake2b)].foldl
    (fun m kv => insertSorted kv.1 kv.2 m) []

/-- One HTTP attempt as seen by `fetch_url`: either `reqwest::get` fails,
or a response arrives carrying a status code and a body read that may
itself fail. -/
inductive HttpOutcome where
  | connErr (e : Nat)
  | response (status : Nat) (body : Except Nat Bytes)

/-- A `reqwest::Error`: raised either by `reqwest::get` or by
`Response::bytes`. -/
inductive FetchError where
  | connect (e : Nat)
  | body (e : Nat)
deriving DecidableEq, Repr

/-- `fetch_url` (`checksums.rs` lines 186–189): `reqwest::get(url).await?`
then `resp.bytes().await`. Neither call inspects the HTTP status code
(`error_for_status` is never called), so any response whose body is
readable is a success, whatever its status. -/
def fetch_url (o : HttpOutcome) : Except FetchError Bytes :=
  match o with
  | .connErr e => .error (.connect e)
  | .response _ (.ok b) => .ok b
  | .response _ (.error e) => .error (.body e)

/-- The notion of a successful (2xx) HTTP status. -/
def isSuccessStatus (status : Nat) : Bool := 200 ≤ status && status < 300

/-- The retry loop of `spawn_fetch_and_checksum_task` (`checksums.rs`
lines 160–174): `attempt` counts 0, 1, 2; a success breaks out at once
and `if attempt == 2 { return Err(e) }` returns the error of the third
failed attempt, so the loop is this three-attempt unrolling. `att i` is
the outcome of the `i`-th HTTP attempt; the second component counts the
attempts performed. -/
def fetchRetry (att : Nat → HttpOutcome) : Except FetchError Bytes × Nat :=
  match fetch_url (att 0) with
  | .ok b => (.ok b, 1)
  | .error _ =>
    match fetch_url (att 1) with
    | .ok b => (.ok b, 2)
    | .error _ =>
      match fetch_url (att 2) with
      | .ok b => (.ok b, 3)
      | .error e => (.error e, 3)

/-- `spawn_fetch_and_checksum_task` (`checksums.rs` lines 157–184): fetch
with retry, then hand the complete byte buffer to the digest engine
(`Sha256::digest`, `Blake2b::digest`, passed here as `sha`, `blake`). -/
def fetchChecksumTask (sha blake : Bytes → Bytes) (att : Nat → HttpOutcome) :
    Except FetchError Checksums × Nat :=
  match fetchRetry att with
  | (.ok bytes, n) => (.ok ⟨sha bytes, blake bytes⟩, n)
  | (.error e, n) => (.error e, n)

/-! ## Location enumeration and backfill (`checksums.rs`) -/

/-- Modelled from the spec: `MuktiProject::all_versions` is declared in
the published `mukti-metadata` crate but absent from the `models.rs`
snapshot; per §4.4/§4.5 it enumerates every version entry across all
range buckets of the project. -/
def MuktiProject.all_versions (project : MuktiProject) :
    List (Version × ReleaseVersionData) :=
  (project.ranges.map (fun rd => rd.2.versions)).flatten

/-- `all_locations` (`checksums.rs` lines 149–155). -/
def all_locations (release_json : MuktiReleasesJson) : List ReleaseLocation :=
  ((release_json.projects.map (fun np => np.2)).map (fun project =>
    (project.all_versions.map (fun vd => vd.2.locations)).flatten)).flatten

/-- `all_locations_without_checksums` (`checksums.rs` lines 140–147):
keep the locations missing at least one of the two digest keys. -/
def all_locations_without_checksums (release_json : MuktiReleasesJson) :
    List ReleaseLocation :=
  (all_locations release_json).filter (fun location =>
    !((lookupA DigestAlgorithm.sha256 location.checksums).isSome &&
      (lookupA DigestAlgorithm.blake2b location.checksums).isSome))

/-- The result-collection loop of `backfill_checksums` (`checksums.rs`
lines 100–121): successful fetches are inserted into a `BTreeMap` keyed
by URL; failures are only logged. `fetchRes url` is the terminal outcome
of the fetch-and-checksum task for `url`. -/
def collectResults (fetchRes : Str → Except FetchError Checksums) :
    List Str → List (Str × Checksums) → List (Str × Checksums)
  | [], results => results
  | url :: rest, results =>
    match fetchRes url with
    | .ok c => collectResults fetchRes rest (insertSorted url c results)
    | .error _ => collectResults fetchRes rest results

/-- The application loop of `backfill_checksums` (`checksums.rs` lines
126–137): overwrite the checksum map of every location whose URL is a
key of the result map; leave every other location untouched. -/
def applyChecksumResults (release_json : MuktiReleasesJson)
    (results : List (Str × Checksums)) : MuktiReleasesJson :=
  { projects := release_json.projects.map (fun np => (np.1, { np.2 with
      ranges := np.2.ranges.map (fun rd => (rd.1, { rd.2 with
        versions := rd.2.versions.map (fun vd => (vd.1, { vd.2 with
          locations := vd.2.locations.map (fun location =>
            match lookupA location.url results with
            | some c => { location with checksums := c.to_checksum_map }
            | none => location) })) })) })) }

/-- `backfill_checksums` (`checksums.rs` lines 79–138): build one fetch
task per location lacking complete checksums, collect the results keyed
by URL, then apply them. Besides the updated tree it returns the list of
URLs for which fetch tasks were created, in order. -/
def backfill_checksums (release_json : MuktiReleasesJson)
    (fetchRes : Str → Except FetchError Checksums) : MuktiReleasesJson × List Str :=
  let urls := (all_locations_without_checksums release_json).map
    (fun location => location.url)
  (applyChecksumResults release_json (collectResults fetchRes urls []), urls)

/-! ## Ordered fetch batch (`checksums.rs` lines 23–77) -/

/-- `TargetFormat` (`command.rs`). -/
structure TargetFormat where
  target : Str
  format : Str
deriving DecidableEq, Repr

/-- `Archive` (`command.rs`). -/
structure Archive where
  target_format : TargetFormat
  name : Str
deriving DecidableEq, Repr

instance {ε α : Type} [DecidableEq ε] [DecidableEq α] : DecidableEq (Except ε α) :=
  fun x y =>
    match x, y with
    | .ok a, .ok b =>
      if h : a = b then isTrue (by rw [h])
      else isFalse (by intro hc; injection hc; contradiction)
    | .error a, .error b =>
      if h : a = b then isTrue (by rw [h])
      else isFalse (by intro hc; injection hc; contradiction)
    | .ok _, .error _ => isFalse (by intro hc; injection hc)
    | .error _, .ok _ => isFalse (by intro hc; injection hc)

/-- `ArchiveWithChecksums` (`checksums.rs` lines 16–21). -/
structure ArchiveWithChecksums where
  archive : Archive
  url : Str
  checksums : Except FetchError Checksums
deriving DecidableEq, Repr

/-- `fetch_release_checksums` (`checksums.rs` lines 23–77): one task per
archive with `url = archive_prefix + "/" + name`; the `buffered` (ordered)
stream yields results in input order and the loop pushes one
`ArchiveWithChecksums` per result, success or failure alike. -/
def fetch_release_checksums (base : Str) (archives : List Archive)
    (fetchRes : Str → Except FetchError Checksums) : List ArchiveWithChecksums :=
  archives.foldl (fun acc archive =>
    let url := base ++ '/' :: archive.name
    acc ++ [{ archive := archive, url := url, checksums := fetchRes url }]) []

/-! ## Add-release reconciliation (`mukti-bin/src/release_json.rs`) -/

/-- The error of `update_release_json`: the `bail!` when the document
does not hold exactly one project (`release_json.rs` lines 45–50). -/
inductive UpdateError where
  | invariant (nprojects : Nat)
deriving DecidableEq, Repr

/-- The per-archive location built at `release_json.rs` lines 70–91: a
failed checksum fetch degrades to an empty checksum map. -/
def archiveToLocation (a : ArchiveWithChecksums) : ReleaseLocation :=
  { target := a.archive.target_format.target
    format := a.archive.target_format.format
    url := a.url
    checksums := match a.checksums with
      | .ok c => c.to_checksum_map
      | .error _ => [] }

/-- Lines 92–123 of `release_json.rs`: insert the version entry into the
bucket, then recompute `latest` / `is_prerelease` — the greatest
non-prerelease version if one exists, else the greatest version overall.
(`keys().next_back()` cannot miss since an entry was just inserted; the
`getD` default is never used.) -/
def upsertVersion (version : Version) (entry : ReleaseVersionData)
    (data : ReleaseRangeData) : ReleaseRangeData :=
  let versions2 := insertSorted version entry data.versions
  match revFind (fun v => v.preIsEmpty) versions2 with
  | some v => { data with versions := versions2, latest := v, is_prerelease := false }
  | none =>
    { data with
      versions := versions2
      latest := ((keysOf versions2).getLast?).getD version
      is_prerelease := true }

/-- `update_release_json` (`release_json.rs` lines 33–137). The result is
`ok (tree, wrote)` where `wrote` records whether `write_releases_json`
was called; an empty archive list returns at once without touching the
tree or the file, then a document without exactly one project is
rejected. -/
def update_release_json (release_json : MuktiReleasesJson) (release_url : Str)
    (version : Version) (archives : List ArchiveWithChecksums) :
    Except UpdateError (MuktiReleasesJson × Bool) :=
  if archives.isEmpty then
    .ok (release_json, false)
  else if release_json.projects.length ≠ 1 then
    .error (.invariant release_json.projects.length)
  else
    match release_json.projects with
    | [] => .error (.invariant 0)
    | (name, project) :: rest =>
      let range := VersionRange.from_version version
      let data := (lookupA range project.ranges).getD
        { latest := version, is_prerelease := !version.preIsEmpty, versions := [] }
      let locations := archives.map archiveToLocation
      let entry : ReleaseVersionData :=
        { release_url := release_url, status := .active,
          locations := locations, metadata := .null }
      let data2 := upsertVersion version entry data
      let ranges2 := insertSorted range data2 project.ranges
      let latest_range := (ranges2.filterMap (fun rd =>
        if rd.2.is_prerelease then none else some rd.1)).max?
      .ok ({ projects := (name, { latest := latest_range, ranges := ranges2 }) :: rest }, true)

/-! ## Spec-side invariants (§3 of the specification) -/

/-- Spec §3: a bucket's `latest` is the maximum version among its
non-prerelease entries if any exist (and then `is_prerelease = false`);
otherwise the maximum version overall, with `is_prerelease = true`. -/
def bucketInv (data : ReleaseRangeData) : Prop :=
  ((∃ v ∈ keysOf data.versions, v.preIsEmpty = true) →
    data.latest ∈ keysOf data.versions ∧ data.latest.preIsEmpty = true ∧
    data.is_prerelease = false ∧
    ∀ v ∈ keysOf data.versions, v.preIsEmpty = true → v ≤ data.latest)
  ∧ ((∀ v ∈ keysOf data.versions, v.preIsEmpty = false) →
    data.latest ∈ keysOf data.versions ∧ data.is_prerelease = true ∧
    ∀ v ∈ keysOf data.versions, v ≤ data.latest)

/-- Spec §3: `Project.latest` is the maximum bucket key among buckets
whose `is_prerelease == false`, `none` if no such bucket exists. -/
def projectInv (project : MuktiProject) : Prop :=
  match project.latest with
  | some r =>
    (∃ d, (r, d) ∈ project.ranges ∧ d.is_prerelease = false) ∧
    ∀ rd ∈ project.ranges, rd.2.is_prerelease = false → rd.1 ≤ r
  | none => ∀ rd ∈ project.ranges, rd.2.is_prerelease = true

/-- The bucket has at least one non-prerelease entry. -/
def hasNonPre (data : ReleaseRangeData) : Prop :=
  ∃ v ∈ keysOf data.versions, v.preIsEmpty = true

theorem lookupA_mem {K V : Type} [LinearOrder K] {k : K} {v : V} :
    ∀ {m : List (K × V)}, lookupA k m = some v → (k, v) ∈ m := by
  intro m
  induction m with
  | nil => intro h; simp [lookupA] at h
  | cons e rest ih =>
    intro h
    obtain ⟨k0, v0⟩ := e
    simp only [lookupA] at h
    by_cases hk : k = k0
    · subst hk
      simp only [if_pos rfl] at h
      obtain rfl : v0 = v := by injection h
      exact List.mem_cons_self _ _
    · rw [if_neg hk] at h
      exact List.mem_cons_of_mem _ (ih h)

/-- The recomputation at the end of the upsert establishes the bucket
invariant, whatever the previous state of the bucket. -/
theorem upsertVersion_bucketInv (version : Version) (entry : ReleaseVersionData)
    (data : ReleaseRangeData) (hs : SortedKeys data.versions) :
    bucketInv (upsertVersion version entry data) := by
  have hs2 : SortedKeys (insertSorted version entry data.versions) :=
    sortedKeys_insertSorted version entry hs
  cases hfind : revFind (fun v => v.preIsEmpty) (insertSorted version entry data.versions) with
  | some v =>
    obtain ⟨hmem, hpre, hmax⟩ := revFind_spec _ hs2 hfind
    simp only [upsertVersion, hfind, bucketInv]
    constructor
    · intro _
      exact ⟨hmem, hpre, trivial, hmax⟩
    · intro hall
      have := hall v hmem
      rw [hpre] at this
      cases this
  | none =>
    have hallpre := revFind_eq_none _ hfind
    have hne : keysOf (insertSorted version entry data.versions) ≠ [] := by
      intro h
      exact insertSorted_ne_nil version entry data.versions (by
        cases hi : insertSorted version entry data.versions
        · rfl
        · rw [hi] at h; simp [keysOf] at h)
    cases hlast : (keysOf (insertSorted version entry data.versions)).getLast? with
    | none =>
      exact absurd (List.getLast?_eq_none_iff.mp hlast) hne
    | some m =>
      obtain ⟨hmem, hmax⟩ := getLast_spec hs2 hlast
      simp only [upsertVersion, hfind, hlast, bucketInv, Option.getD_some]
      constructor
      · rintro ⟨w, hw, hwpre⟩
        have := hallpre w hw
        rw [hwpre] at this
        cases this
      · intro _
        exact ⟨hmem, trivial, hmax⟩

theorem lookupA_insertSorted_self {K V : Type} [LinearOrder K] (k : K) (v : V)
    (m : List (K × V)) : lookupA k (insertSorted k v m) = some v := by
  rw [lookupA_insertSorted]
  simp

theorem filterMap_latest_projectInv (ranges2 : List (VersionRange × ReleaseRangeData)) :
    projectInv
      ⟨(ranges2.filterMap (fun rd =>
          if rd.2.is_prerelease then none else some rd.1)).max?, ranges2⟩ := by
  cases hmax : (ranges2.filterMap (fun rd =>
      if rd.2.is_prerelease then none else some rd.1)).max? with
  | none =>
    have hnil := max?_none hmax
    simp only [projectInv]
    intro rd hrd
    by_cases hpre : rd.2.is_prerelease = true
    · exact hpre
    · exfalso
      have : rd.1 ∈ ranges2.filterMap (fun rd =>
          if rd.2.is_prerelease then none else some rd.1) := by
        rw [List.mem_filterMap]
        exact ⟨rd, hrd, by rw [if_neg hpre]⟩
      rw [hnil] at this
      simp at this
  | some r =>
    obtain ⟨hmem, hmax2⟩ := max?_spec hmax
    rw [List.mem_filterMap] at hmem
    obtain ⟨rd, hrd, hf⟩ := hmem
    simp only [projectInv]
    constructor
    · by_cases hpre : rd.2.is_prerelease = true
      · rw [if_pos hpre] at hf; cases hf
      · rw [if_neg hpre] at hf
        obtain rfl : rd.1 = r := by injection hf
        exact ⟨rd.2, by simpa using hrd, by simpa using hpre⟩
    · intro rd2 hrd2 hpre2
      apply hmax2
      rw [List.mem_filterMap]
      exact ⟨rd2, hrd2, by rw [hpre2]; simp⟩

/-- C1: after every successful add-release mutation (non-empty archive
list, exactly one project, well-formed version maps), the mutated bucket
satisfies the bucket `latest` invariant and the project satisfies the
`Project.latest` invariant. -/
theorem mukti_C1_theorem (release_json : MuktiReleasesJson)
    (release_url : Str) (version : Version) (archives : List ArchiveWithChecksums)
    (harch : archives ≠ [])
    (hone : release_json.projects.length = 1)
    (hsorted : ∀ np ∈ release_json.projects, ∀ rd ∈ np.2.ranges, SortedKeys rd.2.versions) :
    ∃ doc2, update_release_json release_json release_url version archives =
        .ok (doc2, true) ∧
      ∀ np ∈ doc2.projects,
        projectInv np.2 ∧
        ∃ d, lookupA (VersionRange.from_version version) np.2.ranges = some d ∧
          bucketInv d := by
  have hae : archives.isEmpty = false := by
    cases archives
    · exact absurd rfl harch
    · rfl
  cases hp : release_json.projects with
  | nil => rw [hp] at hone; simp at hone
  | cons x rest =>
    obtain ⟨name, project⟩ := x
    have hrest : rest = [] := by
      rw [hp] at hone
      simpa using hone
    subst hrest
    simp only [update_release_json, hae, Bool.false_eq_true, if_false, hp,
      List.length_cons, List.length_nil]
    rw [if_neg (by simp)]
    refine ⟨_, rfl, ?_⟩
    intro np hnp
    simp only [List.mem_singleton] at hnp
    subst hnp
    constructor
    · exact filterMap_latest_projectInv _
    · have hsd : SortedKeys ((lookupA (VersionRange.from_version version)
          project.ranges).getD
          { latest := version, is_prerelease := !version.preIsEmpty,
            versions := [] }).versions := by
        cases hlk : lookupA (VersionRange.from_version version) project.ranges with
        | none => simp [SortedKeys, keysOf]
        | some d =>
          have hmem := lookupA_mem hlk
          simp only [Option.getD_some]
          exact hsorted (name, project) (by rw [hp]; exact List.mem_cons_self _ _) _ hmem
      exact ⟨_, lookupA_insertSorted_self _ _ _, upsertVersion_bucketInv _ _ _ hsd⟩

theorem keysOf_insertSorted_ne_nil {K V : Type} [LinearOrder K] (k : K) (v : V)
    (m : List (K × V)) : keysOf (insertSorted k v m) ≠ [] := by
  intro h
  apply insertSorted_ne_nil k v m
  cases hi : insertSorted k v m
  · rfl
  · rw [hi] at h; simp [keysOf] at h

/-- C2 (amended): on a well-formed bucket, the upsert changes `latest`
only if the inserted version is non-prerelease and greater than the
current non-prerelease latest, or the bucket has no non-prerelease entry
and the inserted version is either greater than the current overall
latest or non-prerelease; and when a non-prerelease entry exists,
inserting a version smaller than `latest` never changes `latest`. -/
theorem mukti_C2_theorem (data : ReleaseRangeData) (version : Version)
    (entry : ReleaseVersionData) (hs : SortedKeys data.versions)
    (hinv : bucketInv data) :
    ((upsertVersion version entry data).latest ≠ data.latest →
      (version.preIsEmpty = true ∧ hasNonPre data ∧ data.latest < version) ∨
      (¬ hasNonPre data ∧ (data.latest < version ∨ version.preIsEmpty = true)))
    ∧ (hasNonPre data → version < data.latest →
      (upsertVersion version entry data).latest = data.latest) := by
  have hs2 : SortedKeys (insertSorted version entry data.versions) :=
    sortedKeys_insertSorted version entry hs
  by_cases hnp : hasNonPre data
  · obtain ⟨hLmem, hLpre, _, hLmax⟩ := hinv.1 hnp
    cases hfind : revFind (fun v => v.preIsEmpty)
        (insertSorted version entry data.versions) with
    | none =>
      exfalso
      obtain ⟨w, hw, hwpre⟩ := hnp
      have hw2 : w ∈ keysOf (insertSorted version entry data.versions) :=
        mem_keysOf_insertSorted.mpr (Or.inr hw)
      have := revFind_eq_none _ hfind w hw2
      rw [hwpre] at this
      cases this
    | some L2 =>
      obtain ⟨hmem2, hpre2, hmax2⟩ := revFind_spec _ hs2 hfind
      have hlat : (upsertVersion version entry data).latest = L2 := by
        simp [upsertVersion, hfind]
      have hLle : data.latest ≤ L2 :=
        hmax2 data.latest (mem_keysOf_insertSorted.mpr (Or.inr hLmem)) hLpre
      constructor
      · intro hchg
        rw [hlat] at hchg
        rcases mem_keysOf_insertSorted.mp hmem2 with hv | hk
        · subst hv
          exact Or.inl ⟨hpre2, ⟨data.latest, hLmem, hLpre⟩,
            lt_of_le_of_ne hLle (fun h => hchg h.symm)⟩
        · exact absurd (le_antisymm (hLmax L2 hk hpre2) hLle) hchg
      · intro _ hvlt
        rw [hlat]
        rcases mem_keysOf_insertSorted.mp hmem2 with hv | hk
        · subst hv
          exact absurd hLle (not_le.mpr hvlt)
        · exact le_antisymm (hLmax L2 hk hpre2) hLle
  · have hallf : ∀ v ∈ keysOf data.versions, v.preIsEmpty = false := by
      intro v hv
      cases hb : v.preIsEmpty
      · rfl
      · exact absurd ⟨v, hv, hb⟩ hnp
    obtain ⟨hMmem, _, hMmax⟩ := hinv.2 hallf
    by_cases hvp : version.preIsEmpty = true
    · exact ⟨fun _ => Or.inr ⟨hnp, Or.inr hvp⟩, fun hc => absurd hc hnp⟩
    · have hvp2 : version.preIsEmpty = false := by
        cases hb : version.preIsEmpty
        · rfl
        · exact absurd hb hvp
      have hallf2 : ∀ v ∈ keysOf (insertSorted version entry data.versions),
          v.preIsEmpty = false := by
        intro v hv
        rcases mem_keysOf_insertSorted.mp hv with h1 | h1
        · subst h1; exact hvp2
        · exact hallf v h1
      cases hfind : revFind (fun v => v.preIsEmpty)
          (insertSorted version entry data.versions) with
      | some L2 =>
        exfalso
        obtain ⟨hmem2, hpre2, _⟩ := revFind_spec _ hs2 hfind
        rw [hallf2 L2 hmem2] at hpre2
        cases hpre2
      | none =>
        have hne : keysOf (insertSorted version entry data.versions) ≠ [] :=
          keysOf_insertSorted_ne_nil version entry data.versions
        cases hlast : (keysOf (insertSorted version entry data.versions)).getLast? with
        | none => exact absurd (List.getLast?_eq_none_iff.mp hlast) hne
        | some M2 =>
          obtain ⟨hmem2, hmax2⟩ := getLast_spec hs2 hlast
          have hlat : (upsertVersion version entry data).latest = M2 := by
            simp [upsertVersion, hfind, hlast]
          have hMle : data.latest ≤ M2 :=
            hmax2 _ (mem_keysOf_insertSorted.mpr (Or.inr hMmem))
          constructor
          · intro hchg
            rw [hlat] at hchg
            rcases mem_keysOf_insertSorted.mp hmem2 with h1 | h1
            · subst h1
              exact Or.inr ⟨hnp, Or.inl (lt_of_le_of_ne hMle (fun h => hchg h.symm))⟩
            · exact absurd (le_antisymm (hMmax M2 h1) hMle) hchg
          · intro hc _
            exact absurd hc hnp

/-- The version entry used in the concrete C2 inputs. -/
def exEntry : ReleaseVersionData := ⟨[], .active, [], .null⟩

/-- The prerelease `2.1.0-beta`. -/
def exBeta : Version := ⟨2, 1, 0, [.alpha ['b','e','t','a']], []⟩

/-- A well-formed bucket holding only the prerelease `2.1.0-beta`. -/
def exBucketPre : ReleaseRangeData := ⟨exBeta, true, [(exBeta, exEntry)]⟩

/-- The non-prerelease `2.0.0`. -/
def exV200 : Version := ⟨2, 0, 0, [], []⟩

/-- C2 counterexample: the bucket holding only the prerelease
`2.1.0-beta` (its `latest`; a well-formed state), upserted with the
smaller non-prerelease `2.0.0`, changes `latest` (to `2.0.0`), although
the claim permits no change here: the inserted version is smaller than
the current `latest`, and it is not greater than the current overall
latest (no non-prerelease latest exists at all). -/
theorem mukti_C2_counterexample :
    SortedKeys exBucketPre.versions ∧ bucketInv exBucketPre ∧
    exV200 < exBucketPre.latest ∧
    (upsertVersion exV200 exEntry exBucketPre).latest ≠ exBucketPre.latest := by
  refine ⟨?_, ?_, ?_, ?_⟩
  · unfold SortedKeys keysOf exBucketPre exBeta exEntry
    decide
  · unfold bucketInv exBucketPre exBeta exEntry
    decide
  · unfold exBucketPre exV200 exBeta
    decide
  · unfold upsertVersion revFind keysOf exBucketPre exV200 exBeta exEntry
    decide

/-- A well-formed bucket holding only the non-prerelease `1.0.0`. -/
def exBucketRel : ReleaseRangeData :=
  ⟨⟨1, 0, 0, [], []⟩, false, [(⟨1, 0, 0, [], []⟩, exEntry)]⟩

/-- The version `0.5.0`. -/
def exV050 : Version := ⟨0, 5, 0, [], []⟩

/-- Witness for the amended C2 at a concrete input: a bucket holding the
non-prerelease `1.0.0`, upserted with the smaller `0.5.0`. -/
theorem mukti_C2_witness :
    SortedKeys exBucketRel.versions ∧ bucketInv exBucketRel ∧
    (((upsertVersion exV050 exEntry exBucketRel).latest ≠ exBucketRel.latest →
      (exV050.preIsEmpty = true ∧ hasNonPre exBucketRel ∧ exBucketRel.latest < exV050) ∨
      (¬ hasNonPre exBucketRel ∧
        (exBucketRel.latest < exV050 ∨ exV050.preIsEmpty = true)))
    ∧ (hasNonPre exBucketRel → exV050 < exBucketRel.latest →
      (upsertVersion exV050 exEntry exBucketRel).latest = exBucketRel.latest)) := by
  refine ⟨?_, ?_, ?_⟩
  · unfold SortedKeys keysOf exBucketRel exEntry
    decide
  · unfold bucketInv exBucketRel exEntry
    decide
  · exact mukti_C2_theorem exBucketRel exV050 exEntry
      (by unfold SortedKeys keysOf exBucketRel exEntry; decide)
      (by unfold bucketInv exBucketRel exEntry; decide)

/-- Archive input for the C1 witness. -/
def c1Archive : ArchiveWithChecksums :=
  ⟨⟨⟨['x'], ['.','t','a','r']⟩, ['a']⟩, ['u'], .error (.connect 0)⟩

/-- Document with one empty project, for the C1 witness. -/
def c1Doc : MuktiReleasesJson := ⟨[(['p'], ⟨none, []⟩)]⟩

/-- Target version for the C1 witness. -/
def c1Version : Version := ⟨1, 2, 0, [], []⟩

/-- Witness for C1 at a concrete input. -/
theorem mukti_C1_witness :
    ([c1Archive] ≠ ([] : List ArchiveWithChecksums)) ∧
    c1Doc.projects.length = 1 ∧
    (∀ np ∈ c1Doc.projects, ∀ rd ∈ np.2.ranges, SortedKeys rd.2.versions) ∧
    (∃ doc2, update_release_json c1Doc ['r'] c1Version [c1Archive] = .ok (doc2, true) ∧
      ∀ np ∈ doc2.projects, projectInv np.2 ∧
        ∃ d, lookupA (VersionRange.from_version c1Version) np.2.ranges = some d ∧
          bucketInv d) := by
  refine ⟨by simp, by decide, ?_, ?_⟩
  · intro np hnp rd hrd
    simp [c1Doc] at hnp
    subst hnp
    simp at hrd
  · exact mukti_C1_theorem c1Doc ['r'] c1Version [c1Archive] (by simp) (by decide)
      (by
        intro np hnp rd hrd
        simp [c1Doc] at hnp
        subst hnp
        simp at hrd)

/-- C9: adding a release with an empty archive list is a silent no-op —
success, no mutation, no write; with a non-empty archive list on a
document whose project count differs from one, the call fails with the
invariant-violation error and performs no mutation and no write. -/
theorem mukti_C9_theorem (release_json : MuktiReleasesJson) (release_url : Str)
    (version : Version) (archives : List ArchiveWithChecksums) :
    (update_release_json release_json release_url version [] =
      .ok (release_json, false))
    ∧ (archives ≠ [] → release_json.projects.length ≠ 1 →
      update_release_json release_json release_url version archives =
        .error (.invariant release_json.projects.length)) := by
  constructor
  · simp [update_release_json]
  · intro harch hlen
    have hae : archives.isEmpty = false := by
      cases archives
      · exact absurd rfl harch
      · rfl
    simp [update_release_json, hae, hlen]

/-- Archive input for the C9 witness. -/
def c9Archive : ArchiveWithChecksums :=
  ⟨⟨⟨['y'], ['.','z','i','p']⟩, ['b']⟩, ['w'], .error (.body 1)⟩

/-- A document holding two projects, for the C9 witness. -/
def c9Doc : MuktiReleasesJson := ⟨[(['p'], ⟨none, []⟩), (['q'], ⟨none, []⟩)]⟩

/-- Witness for C9 at a concrete input. -/
theorem mukti_C9_witness :
    ([c9Archive] ≠ ([] : List ArchiveWithChecksums)) ∧
    c9Doc.projects.length ≠ 1 ∧
    (update_release_json c9Doc ['r'] c1Version [] = .ok (c9Doc, false)) ∧
    update_release_json c9Doc ['r'] c1Version [c9Archive] =
      .error (.invariant c9Doc.projects.length) := by
  refine ⟨by simp, by decide, ?_, ?_⟩
  · exact (mukti_C9_theorem c9Doc ['r'] c1Version [c9Archive]).1
  · exact (mukti_C9_theorem c9Doc ['r'] c1Version [c9Archive]).2 (by simp) (by decide)

/-- C10: the empty-archive-list guard runs before the single-project
guard: for any document, also one whose project count differs from one,
an add-release call with an empty archive list succeeds without
validating the project count, mutating anything, or writing; the project
count is only enforced when the archive list is non-empty. -/
theorem mukti_C10_theorem (release_json : MuktiReleasesJson) (release_url : Str)
    (version : Version) (archives : List ArchiveWithChecksums) :
    (release_json.projects.length ≠ 1 →
      update_release_json release_json release_url version [] =
        .ok (release_json, false))
    ∧ (archives ≠ [] → release_json.projects.length ≠ 1 →
      update_release_json release_json release_url version archives =
        .error (.invariant release_json.projects.length)) := by
  constructor
  · intro _
    simp [update_release_json]
  · intro harch hlen
    have hae : archives.isEmpty = false := by
      cases archives
      · exact absurd rfl harch
      · rfl
    simp [update_release_json, hae, hlen]

/-- A document with zero projects, for the C10 witness. -/
def c10Doc : MuktiReleasesJson := ⟨[]⟩

/-- Archive input for the C10 witness. -/
def c10Archive : ArchiveWithChecksums :=
  ⟨⟨⟨['z'], ['.','g','z']⟩, ['c']⟩, ['v'], .ok ⟨[1], [2]⟩⟩

/-- Witness for C10 at a concrete input: a zero-project document. -/
theorem mukti_C10_witness :
    c10Doc.projects.length ≠ 1 ∧
    ([c10Archive] ≠ ([] : List ArchiveWithChecksums)) ∧
    (update_release_json c10Doc ['r'] c1Version [] = .ok (c10Doc, false)) ∧
    update_release_json c10Doc ['r'] c1Version [c10Archive] =
      .error (.invariant c10Doc.projects.length) := by
  refine ⟨by decide, by simp, ?_, ?_⟩
  · exact (mukti_C10_theorem c10Doc ['r'] c1Version [c10Archive]).1 (by decide)
  · exact (mukti_C10_theorem c10Doc ['r'] c1Version [c10Archive]).2 (by simp) (by decide)

/-- C7: the bucket key is a pure function of `(major, minor, patch)`:
prerelease and build metadata never affect it, and it follows the
`major ≥ 1 → Major(major)`, `else minor ≥ 1 → Minor(minor)`, `else
Patch(patch)` rule; in particular `1.2.3 ↦ Major(1)`, `0.5.0 ↦ Minor(5)`,
`0.0.7 ↦ Patch(7)` whatever the prerelease/build. -/
theorem mukti_C7_theorem (major minor patch : Nat) (pre build : List PreId) :
    VersionRange.from_version ⟨major, minor, patch, pre, build⟩ =
      VersionRange.from_version ⟨major, minor, patch, [], []⟩
    ∧ VersionRange.from_version ⟨major, minor, patch, pre, build⟩ =
      (if major ≥ 1 then VersionRange.major major
       else if minor ≥ 1 then VersionRange.minor minor
       else VersionRange.patch patch)
    ∧ VersionRange.from_version ⟨1, 2, 3, pre, build⟩ = VersionRange.major 1
    ∧ VersionRange.from_version ⟨0, 5, 0, pre, build⟩ = VersionRange.minor 5
    ∧ VersionRange.from_version ⟨0, 0, 7, pre, build⟩ = VersionRange.patch 7 := by
  refine ⟨rfl, rfl, ?_, ?_, ?_⟩ <;> simp [VersionRange.from_version]

/-- C3 (amended): the task performs the complete attempt (HTTP request
plus body read) up to 3 total tries, treating a network error or a
body-read error as a failed attempt — a response with any HTTP status
whose body is readable is a successful attempt, the status is never
inspected; only after the third failed attempt does the task return
`Err` carrying the last error, and an earlier successful attempt
short-circuits with the fetched bytes handed to the digest engine. -/
theorem mukti_C3_theorem (sha blake : Bytes → Bytes) (att : Nat → HttpOutcome) :
    (∀ status b, fetch_url (.response status (.ok b)) = .ok b)
    ∧ (∀ b, fetch_url (att 0) = .ok b →
      fetchChecksumTask sha blake att = (.ok ⟨sha b, blake b⟩, 1))
    ∧ (∀ e0 b, fetch_url (att 0) = .error e0 → fetch_url (att 1) = .ok b →
      fetchChecksumTask sha blake att = (.ok ⟨sha b, blake b⟩, 2))
    ∧ (∀ e0 e1 b, fetch_url (att 0) = .error e0 → fetch_url (att 1) = .error e1 →
      fetch_url (att 2) = .ok b →
      fetchChecksumTask sha blake att = (.ok ⟨sha b, blake b⟩, 3))
    ∧ (∀ e0 e1 e2, fetch_url (att 0) = .error e0 → fetch_url (att 1) = .error e1 →
      fetch_url (att 2) = .error e2 →
      fetchChecksumTask sha blake att = (.error e2, 3)) := by
  refine ⟨fun status b => rfl, ?_, ?_, ?_, ?_⟩
  · intro b h0
    simp [fetchChecksumTask, fetchRetry, h0]
  · intro e0 b h0 h1
    simp [fetchChecksumTask, fetchRetry, h0, h1]
  · intro e0 e1 b h0 h1 h2
    simp [fetchChecksumTask, fetchRetry, h0, h1, h2]
  · intro e0 e1 e2 h0 h1 h2
    simp [fetchChecksumTask, fetchRetry, h0, h1, h2]

/-- C3 counterexample: an attempt answered with HTTP status 404 and a
readable body is not treated as a failed attempt, contrary to the claim:
the task succeeds on the first try and hashes the 404 body. -/
theorem mukti_C3_counterexample :
    isSuccessStatus 404 = false ∧
    fetch_url (.response 404 (.ok [104, 105])) = .ok [104, 105] ∧
    fetchChecksumTask (fun b => 0 :: b) (fun b => 1 :: b)
      (fun _ => .response 404 (.ok [104, 105])) =
      (.ok ⟨[0, 104, 105], [1, 104, 105]⟩, 1) :=
  ⟨rfl, rfl, rfl⟩

/-- Witness for the amended C3: an oracle failing twice (connection
error, then body-read error) and succeeding on the third attempt. -/
theorem mukti_C3_witness :
    (fetch_url (.connErr 7) = .error (.connect 7)) ∧
    (fetch_url (.response 200 (.error 8)) = .error (.body 8)) ∧
    (fetch_url (.response 500 (.ok [9])) = .ok [9]) ∧
    fetchChecksumTask (fun b => 0 :: b) (fun b => 1 :: b)
      (fun i => if i = 0 then .connErr 7
        else if i = 1 then .response 200 (.error 8)
        else .response 500 (.ok [9])) =
      (.ok ⟨[0, 9], [1, 9]⟩, 3) := by
  refine ⟨rfl, rfl, rfl, ?_⟩
  exact (mukti_C3_theorem (fun b => 0 :: b) (fun b => 1 :: b)
    (fun i => if i = 0 then .connErr 7
      else if i = 1 then .response 200 (.error 8)
      else .response 500 (.ok [9]))).2.2.2.1 (.connect 7) (.body 8) [9] rfl rfl rfl

theorem foldl_push_eq_map {α β : Type} (f : α → β) :
    ∀ (l : List α) (acc : List β),
      l.foldl (fun acc x => acc ++ [f x]) acc = acc ++ l.map f := by
  intro l
  induction l with
  | nil => intro acc; simp
  | cons x t ih =>
    intro acc
    simp only [List.foldl_cons, List.map_cons]
    rw [ih]
    simp

/-- C6: the ordered fetch batch returns exactly one outcome per input
archive, in input order, each paired with its original archive and with
`url = prefix + "/" + name`; a failed fetch yields a per-item `Err`
outcome which `update_release_json` later degrades to an empty checksum
map, and no aggregate failure ever drops other items. -/
theorem mukti_C6_theorem (base : Str) (archives : List Archive)
    (fetchRes : Str → Except FetchError Checksums) :
    (fetch_release_checksums base archives fetchRes =
      archives.map (fun archive =>
        ⟨archive, base ++ '/' :: archive.name,
          fetchRes (base ++ '/' :: archive.name)⟩))
    ∧ (fetch_release_checksums base archives fetchRes).length = archives.length
    ∧ (∀ i : Nat, (fetch_release_checksums base archives fetchRes)[i]? =
      (archives[i]?).map (fun archive =>
        ⟨archive, base ++ '/' :: archive.name,
          fetchRes (base ++ '/' :: archive.name)⟩))
    ∧ (∀ a u e, (archiveToLocation ⟨a, u, .error e⟩).checksums = [])
    ∧ (∀ a u c, (archiveToLocation ⟨a, u, .ok c⟩).checksums = c.to_checksum_map) := by
  have hmain : fetch_release_checksums base archives fetchRes =
      archives.map (fun archive =>
        ⟨archive, base ++ '/' :: archive.name,
          fetchRes (base ++ '/' :: archive.name)⟩) := by
    unfold fetch_release_checksums
    rw [foldl_push_eq_map]
    simp
  refine ⟨hmain, ?_, ?_, fun a u e => rfl, fun a u c => rfl⟩
  · rw [hmain, List.length_map]
  · intro i
    rw [hmain, List.getElem?_map]

/-- The lookup result of the backfill result-collection loop: starting
from `acc`, a URL maps to `c` when it was fetched successfully with
result `c`, and keeps its `acc` binding otherwise. -/
theorem lookupA_collectResults (fetchRes : Str → Except FetchError Checksums) :
    ∀ (urls : List Str) (acc : List (Str × Checksums)) (u : Str),
      lookupA u (collectResults fetchRes urls acc) =
        if u ∈ urls then
          match fetchRes u with
          | .ok c => some c
          | .error _ => lookupA u acc
        else lookupA u acc := by
  intro urls
  induction urls with
  | nil =>
    intro acc u
    simp [collectResults]
  | cons url rest ih =>
    intro acc u
    cases hf : fetchRes url with
    | ok c =>
      simp only [collectResults, hf]
      rw [ih]
      by_cases hmem : u ∈ rest
      · rw [if_pos hmem, if_pos (List.mem_cons.mpr (Or.inr hmem))]
        cases hfu : fetchRes u with
        | ok c2 => rfl
        | error e =>
          have hne : u ≠ url := by
            intro h
            rw [h, hf] at hfu
            cases hfu
          simp [lookupA_insertSorted, hne]
      · by_cases hu : u = url
        · subst hu
          rw [if_neg hmem, if_pos (List.mem_cons_self _ _), hf]
          simp [lookupA_insertSorted]
        · have hnmem : ¬ u ∈ url :: rest := by
            intro h
            rcases List.mem_cons.mp h with h1 | h1
            · exact hu h1
            · exact hmem h1
          rw [if_neg hmem, if_neg hnmem]
          simp [lookupA_insertSorted, hu]
    | error e =>
      simp only [collectResults, hf]
      rw [ih]
      by_cases hmem : u ∈ rest
      · rw [if_pos hmem, if_pos (List.mem_cons.mpr (Or.inr hmem))]
      · by_cases hu : u = url
        · subst hu
          rw [if_neg hmem, if_pos (List.mem_cons_self _ _), hf]
        · have hnmem : ¬ u ∈ url :: rest := by
            intro h
            rcases List.mem_cons.mp h with h1 | h1
            · exact hu h1
            · exact hmem h1
          rw [if_neg hmem, if_neg hnmem]

theorem map_locations_comm (φ : ReleaseLocation → ReleaseLocation)
    (vds : List (Version × ReleaseVersionData)) :
    ((vds.map (fun vd => (vd.1, { vd.2 with
        locations := vd.2.locations.map φ }))).map (fun vd => vd.2.locations)).flatten
      = ((vds.map (fun vd => vd.2.locations)).flatten).map φ := by
  rw [List.map_flatten, List.map_map, List.map_map]
  rfl

theorem map_versions_comm (ψ : ReleaseVersionData → ReleaseVersionData)
    (ranges : List (VersionRange × ReleaseRangeData)) :
    ((ranges.map (fun rd => (rd.1, { rd.2 with
        versions := rd.2.versions.map
          (fun vd : Version × ReleaseVersionData => (vd.1, ψ vd.2)) }))).map
      (fun rd => rd.2.versions)).flatten
      = ((ranges.map (fun rd => rd.2.versions)).flatten).map
          (fun vd : Version × ReleaseVersionData => (vd.1, ψ vd.2)) := by
  rw [List.map_flatten, List.map_map, List.map_map]
  rfl

/-- C4 (amended): the list of URLs fetched by the backfill equals, in
order, the URLs of the locations that are not checksum-complete — one
fetch task per such location, so a URL shared by several incomplete
locations is fetched once per location, not once in total — and the
results are collected into a mapping keyed by URL holding exactly the
fetched URLs whose task succeeded. -/
theorem mukti_C4_theorem (release_json : MuktiReleasesJson)
    (fetchRes : Str → Except FetchError Checksums) :
    ((backfill_checksums release_json fetchRes).2 =
      ((all_locations release_json).filter (fun location =>
        !((lookupA DigestAlgorithm.sha256 location.checksums).isSome &&
          (lookupA DigestAlgorithm.blake2b location.checksums).isSome))).map
        (fun location => location.url))
    ∧ (∀ u c, lookupA u (collectResults fetchRes
        (backfill_checksums release_json fetchRes).2 []) = some c ↔
      (u ∈ (backfill_checksums release_json fetchRes).2 ∧ fetchRes u = .ok c)) := by
  constructor
  · rfl
  · intro u c
    rw [lookupA_collectResults]
    by_cases hmem : u ∈ (backfill_checksums release_json fetchRes).2
    · rw [if_pos hmem]
      cases hf : fetchRes u with
      | ok c2 =>
        simp only [hmem, true_and]
        constructor
        · intro h
          obtain rfl : c2 = c := by injection h
          rfl
        · intro h
          obtain rfl : c2 = c := by injection h
          rfl
      | error e =>
        simp [lookupA, hmem]
    · rw [if_neg hmem]
      simp [lookupA, hmem]

/-- A location with an empty checksum map and URL `u`. -/
def c4Loc : ReleaseLocation := ⟨['t'], ['f'], ['u'], []⟩

/-- A document with two incomplete locations sharing the URL `u`. -/
def c4Doc : MuktiReleasesJson :=
  ⟨[(['p'], ⟨none, [(VersionRange.major 1,
    ⟨⟨1, 0, 0, [], []⟩, false,
      [(⟨1, 0, 0, [], []⟩, ⟨[], .active, [c4Loc, c4Loc], .null⟩)]⟩)]⟩)]⟩

/-- C4 counterexample: two checksum-less locations share the URL `u`,
and the backfill creates two fetch tasks for `u` — duplicate URLs are
not collapsed into a single fetch. -/
theorem mukti_C4_counterexample :
    (backfill_checksums c4Doc (fun _ => .error (.connect 0))).2 = [['u'], ['u']] ∧
    ¬ ((backfill_checksums c4Doc (fun _ => .error (.connect 0))).2).Nodup := by
  constructor
  · rfl
  · intro h
    rw [show (backfill_checksums c4Doc (fun _ => .error (.connect 0))).2 =
      [['u'], ['u']] from rfl] at h
    simp at h

/-- C5: applying a completed backfill result map rewrites every location
whose URL is a key of the map to the fresh two-entry checksum map for
that URL — sha256 and blake2b, both lowercase hex, replacing any prior
partial state — and leaves every location whose URL is not a key exactly
as before. -/
theorem mukti_C5_theorem (release_json : MuktiReleasesJson)
    (results : List (Str × Checksums)) :
    (all_locations (applyChecksumResults release_json results) =
      (all_locations release_json).map (fun location =>
        match lookupA location.url results with
        | some c => { location with checksums := c.to_checksum_map }
        | none => location))
    ∧ (∀ c : Checksums, c.to_checksum_map =
      [(DigestAlgorithm.sha256, hexEncode c.sha256),
       (DigestAlgorithm.blake2b, hexEncode c.blake2b)]) := by
  constructor
  · unfold all_locations applyChecksumResults MuktiProject.all_versions
    rw [List.map_flatten, List.map_map, List.map_map, List.map_map, List.map_map]
    congr 1
    apply List.map_congr_left
    intro np _
    dsimp only [Function.comp]
    rw [map_versions_comm (fun vd2 => { vd2 with
      locations := vd2.locations.map (fun location =>
        match lookupA location.url results with
        | some c => { location with checksums := c.to_checksum_map }
        | none => location) })]
    rw [map_locations_comm]
  · intro c
    rfl

/-! ## Serialization round trip (`models.rs` lines 72–83, 125–147) -/

/-- `serialize_reverse` applied to a `ranges` map (`models.rs` lines
72–83): entries are emitted in reverse (descending) key order, keys
rendered by `Display`. -/
def serializeRanges {V : Type} (m : List (VersionRange × V)) : List (Str × V) :=
  m.reverse.map (fun kv => (VersionRange.render kv.1, kv.2))

/-- serde deserialization of a `ranges` map: parse every key with
`FromStr`, inserting into a fresh `BTreeMap`; fail if any key fails. -/
def deserializeRanges {V : Type} (entries : List (Str × V)) :
    Option (List (VersionRange × V)) :=
  entries.foldl
    (fun acc2 e =>
      match acc2 with
      | none => none
      | some m =>
        match VersionRange.parse e.1 with
        | some r => some (insertSorted r e.2 m)
        | none => none) (some [])

/-- A `BTreeMap` built by inserting an arbitrary sequence of entries, in
order (the map seen after any insertion history). -/
def buildMap {K V : Type} [LinearOrder K] (l : List (K × V)) : List (K × V) :=
  l.foldl (fun m kv => insertSorted kv.1 kv.2 m) []

theorem digitChar_spec (d : Nat) (hd : d < 10) :
    digitVal (digitChar d) = d ∧ isDigitChar (digitChar d) = true := by
  interval_cases d <;> exact ⟨by decide, by decide⟩

theorem natCharsRev_digits :
    ∀ (fuel n : Nat), n ≤ fuel → ∀ c ∈ natCharsRev n fuel, isDigitChar c = true := by
  intro fuel
  induction fuel with
  | zero =>
    intro n hn c hc
    simp [natCharsRev] at hc
  | succ fuel ih =>
    intro n hn c hc
    by_cases h0 : n = 0
    · simp [natCharsRev, h0] at hc
    · simp only [natCharsRev, if_neg h0, List.mem_cons] at hc
      rcases hc with h | h
      · subst h
        exact (digitChar_spec (n % 10) (Nat.mod_lt _ (by norm_num))).2
      · have hdiv : n / 10 < n := Nat.div_lt_self (Nat.pos_of_ne_zero h0) (by norm_num)
        exact ih (n / 10) (by omega) c h

theorem natCharsRev_val :
    ∀ (fuel n : Nat), n ≤ fuel → ∀ a : Nat,
      (natCharsRev n fuel).reverse.foldl (fun acc c => acc * 10 + digitVal c) a =
        a * 10 ^ (natCharsRev n fuel).length + n := by
  intro fuel
  induction fuel with
  | zero =>
    intro n hn a
    interval_cases n
    simp [natCharsRev]
  | succ fuel ih =>
    intro n hn a
    by_cases h0 : n = 0
    · simp [natCharsRev, h0]
    · have hdiv : n / 10 < n := Nat.div_lt_self (Nat.pos_of_ne_zero h0) (by norm_num)
      simp only [natCharsRev, if_neg h0, List.reverse_cons, List.foldl_append,
        List.foldl_cons, List.foldl_nil, List.length_cons]
      rw [ih (n / 10) (by omega) a]
      rw [(digitChar_spec (n % 10) (Nat.mod_lt _ (by norm_num))).1]
      have hmod : n / 10 * 10 + n % 10 = n := by
        have h2 := Nat.div_add_mod n 10
        omega
      rw [pow_succ]
      calc (a * 10 ^ (natCharsRev (n / 10) fuel).length + n / 10) * 10 + n % 10
          = a * (10 ^ (natCharsRev (n / 10) fuel).length * 10) +
            (n / 10 * 10 + n % 10) := by ring
        _ = a * (10 ^ (natCharsRev (n / 10) fuel).length * 10) + n := by rw [hmod]

theorem natChars_digits (n : Nat) : ∀ c ∈ natChars n, isDigitChar c = true := by
  intro c hc
  by_cases h0 : n = 0
  · subst h0
    simp [natChars] at hc
    subst hc
    decide
  · rw [natChars, if_neg h0] at hc
    exact natCharsRev_digits n n le_rfl c (List.mem_reverse.mp hc)

theorem natChars_ne_nil (n : Nat) : natChars n ≠ [] := by
  by_cases h0 : n = 0
  · subst h0
    simp [natChars]
  · rw [natChars, if_neg h0]
    simp only [ne_eq, List.reverse_eq_nil_iff]
    obtain ⟨m, rfl⟩ : ∃ m, n = m + 1 := ⟨n - 1, by omega⟩
    simp [natCharsRev]

theorem digitsVal_natChars (n : Nat) : digitsVal (natChars n) = some n := by
  by_cases h0 : n = 0
  · subst h0
    decide
  · have hne := natChars_ne_nil n
    have hempty : (natChars n).isEmpty = false := by
      cases hh : natChars n
      · exact absurd hh hne
      · rfl
    have hall : (natChars n).all isDigitChar = true :=
      List.all_eq_true.mpr (fun c hc => natChars_digits n c hc)
    rw [digitsVal, hempty, hall]
    simp only [Bool.false_eq_true, if_false, if_true]
    rw [natChars, if_neg h0]
    rw [natCharsRev_val n n le_rfl 0]
    simp

theorem parseU64_natChars (n : Nat) : parseU64 (natChars n) = some n := by
  cases hrc : natChars n with
  | nil => exact absurd hrc (natChars_ne_nil n)
  | cons c cs =>
    have hcdig : isDigitChar c = true := by
      apply natChars_digits n
      rw [hrc]
      exact List.mem_cons_self _ _
    have hplus : c ≠ '+' := by
      intro h
      rw [h] at hcdig
      exact absurd hcdig (by decide)
    rw [parseU64, if_neg hplus, ← hrc, digitsVal_natChars]

theorem dropLit_dot_none (p1 : Char) (ps : List Char) :
    ∀ l : List Char, (∀ c ∈ l, isDigitChar c = true) →
      dropLit (p1 :: '.' :: ps) l = none := by
  intro l hl
  match l with
  | [] => rfl
  | [c] =>
    simp only [dropLit]
    split <;> rfl
  | c1 :: c2 :: t =>
    simp only [dropLit]
    split
    · have h2 : isDigitChar c2 = true := hl c2 (by simp)
      have hdot : ¬ c2 = '.' := by
        intro h
        rw [h] at h2
        exact absurd h2 (by decide)
      simp [dropLit, hdot]
    · rfl

theorem versionRange_roundtrip (r : VersionRange) :
    VersionRange.parse (VersionRange.render r) = some r := by
  cases r with
  | major n =>
    have h1 : dropLit ['0', '.', '0', '.'] (natChars n) = none :=
      dropLit_dot_none '0' ['0', '.'] (natChars n) (natChars_digits n)
    have h2 : dropLit ['0', '.'] (natChars n) = none :=
      dropLit_dot_none '0' [] (natChars n) (natChars_digits n)
    simp [VersionRange.parse, VersionRange.render, h1, h2, parseU64_natChars]
  | minor n =>
    have h2 : dropLit ['0', '.'] (natChars n) = none :=
      dropLit_dot_none '0' [] (natChars n) (natChars_digits n)
    have h1 : dropLit ['0', '.', '0', '.'] ('0' :: '.' :: natChars n) = none := by
      simp only [dropLit, if_pos rfl]
      exact h2
    have h3 : dropLit ['0', '.'] ('0' :: '.' :: natChars n) = some (natChars n) := by
      simp [dropLit]
    simp [VersionRange.parse, VersionRange.render, h1, h3, parseU64_natChars]
  | patch n =>
    have h1 : dropLit ['0', '.', '0', '.'] ('0' :: '.' :: '0' :: '.' :: natChars n) =
        some (natChars n) := by
      simp [dropLit]
    simp [VersionRange.parse, VersionRange.render, h1, parseU64_natChars]

theorem sortedKeys_buildMap {K V : Type} [LinearOrder K] (l : List (K × V)) :
    SortedKeys (buildMap l) := by
  have haux : ∀ (l2 : List (K × V)) (m : List (K × V)), SortedKeys m →
      SortedKeys (l2.foldl (fun m kv => insertSorted kv.1 kv.2 m) m) := by
    intro l2
    induction l2 with
    | nil => intro m hm; exact hm
    | cons kv rest ih =>
      intro m hm
      exact ih _ (sortedKeys_insertSorted _ _ hm)
  exact haux l [] (by simp [SortedKeys, keysOf])

theorem deser_serialize {W : Type} :
    ∀ (entries acc : List (VersionRange × W)),
      (entries.map (fun kv => (VersionRange.render kv.1, kv.2))).foldl
        (fun acc2 e =>
          match acc2 with
          | none => none
          | some m =>
            match VersionRange.parse e.1 with
            | some r => some (insertSorted r e.2 m)
            | none => none) (some acc) =
      some (entries.foldl (fun m kv => insertSorted kv.1 kv.2 m) acc) := by
  intro entries
  induction entries with
  | nil => intro acc; rfl
  | cons kv rest ih =>
    intro acc
    simp only [List.map_cons, List.foldl_cons, versionRange_roundtrip]
    exact ih _

/-- C8: `VersionRange` rendering round-trips through parsing and is
exactly one of the three forms; a serialized map (its `ranges` and
`versions` mappings alike) lists its keys in strictly descending order
whatever the insertion history; and serializing then deserializing a
`ranges` map reproduces it. -/
theorem mukti_C8_theorem (K V W : Type) [LinearOrder K]
    (ins : List (K × V)) (insr : List (VersionRange × W)) (n : Nat) :
    (∀ r, VersionRange.parse (VersionRange.render r) = some r)
    ∧ VersionRange.render (.major n) = natChars n
    ∧ VersionRange.render (.minor n) = '0' :: '.' :: natChars n
    ∧ VersionRange.render (.patch n) = '0' :: '.' :: '0' :: '.' :: natChars n
    ∧ ((keysOf (buildMap ins)).reverse).Pairwise (· > ·)
    ∧ deserializeRanges (serializeRanges (buildMap insr)) = some (buildMap insr) := by
  refine ⟨versionRange_roundtrip, rfl, rfl, rfl, ?_, ?_⟩
  · rw [List.pairwise_reverse]
    exact sortedKeys_buildMap ins
  · unfold deserializeRanges serializeRanges
    rw [deser_serialize (buildMap insr).reverse []]
    rw [List.foldl_reverse]
    rw [foldr_insertSorted_self _ (sortedKeys_buildMap insr)]
